import Mathlib

/-!
Verification development for the prostate-MRI preprocessing and training
pipeline (`data_helpers.py`).  Python functions are shallowly embedded as Lean
definitions.  Randomized library draws (`random.sample`, `np.random.choice`,
`np.random.randint`, `np.random.rand`) are modelled nondeterministically: each
draw becomes an explicit argument, constrained by hypotheses stating exactly
the guarantees the library call provides (subset of the population, requested
cardinality, requested range).  Machine floats are modelled as exact rationals.
-/

/-! ### Numeric helpers

`pyInt` models Python's `int(...)` applied to a finite float: truncation toward
zero.  `npRound` models `np.round` (and Python 3 `round`): round half to even.
-/

def pyInt (q : ℚ) : ℤ := if q < 0 then -⌊-q⌋ else ⌊q⌋

def npRound (q : ℚ) : ℤ :=
  if q - ⌊q⌋ < 1/2 then ⌊q⌋
  else if 1/2 < q - ⌊q⌋ then ⌊q⌋ + 1
  else if ⌊q⌋ % 2 = 0 then ⌊q⌋ else ⌊q⌋ + 1

/-! ### Fold partitioner (`write_cropped_images_train_and_folds`, lines 126-214)

The function flattens every patient's crops to a list `patient_images`; patient
`idx`'s block of crops occupies patch indices `idx*num_crops .. idx*num_crops +
num_crops - 1`, and the last character of the key stored at `idx*num_crops`
records the cancer marker.  We model the number of patients as `n`
(`len(patient_images) // num_crops`) and the marker lookup
`patient_images[idx * num_crops][0][-1] == '1'` as a function
`cancer : ℕ → Bool`.

Per fold, the body draws `non_cancer_in_fold`, `cancer_in_fold` and
`non_cancer_out_of_fold` with `random.sample`; these draws appear below as
explicit `Finset ℕ` arguments.  The Python dicts `fold_key_mapping` and
`train_key_mapping` re-key the two image-index sets densely (iterating a
Python `set`, so in unspecified order); the claims speak about their value
sets, which are exactly `imageIndices` of the corresponding patient sets.
-/

def patientIndices (n : ℕ) : Finset ℕ := Finset.range n

def cancerPatients (n : ℕ) (cancer : ℕ → Bool) : Finset ℕ :=
  (patientIndices n).filter (fun i => cancer i = true)

def nonCancerPatients (n : ℕ) (cancer : ℕ → Bool) : Finset ℕ :=
  (patientIndices n).filter (fun i => cancer i = false)

/-- `num_each_class_fold = int(fold_fraction * len(cancer_patients))`. -/
def numEachClassFold (f : ℚ) (numCancer : ℕ) : ℕ := (pyInt (f * numCancer)).toNat

/-- `fold_set = set(); fold_set.update(non_cancer_in_fold); fold_set.update(cancer_in_fold)`. -/
def foldSet (ncif cif : Finset ℕ) : Finset ℕ := ncif ∪ cif

/-- `out_of_fold = patient_indices.difference(fold_set)`. -/
def outOfFold (n : ℕ) (ncif cif : Finset ℕ) : Finset ℕ :=
  patientIndices n \ foldSet ncif cif

/-- `cancer_out_of_fold = {idx for idx in out_of_fold if ... == '1'}`. -/
def cancerOutOfFold (n : ℕ) (cancer : ℕ → Bool) (ncif cif : Finset ℕ) : Finset ℕ :=
  (outOfFold n ncif cif).filter (fun i => cancer i = true)

/-- `out_of_fold_set = cancer_out_of_fold ∪ non_cancer_out_of_fold`. -/
def outOfFoldSet (cancerOOF ncof : Finset ℕ) : Finset ℕ := cancerOOF ∪ ncof

/-- Expansion of a patient set to patch indices: the loops
`for key in s: for pos in range(num_crops): add(key * num_crops + pos)`. -/
def imageIndices (s : Finset ℕ) (c : ℕ) : Finset ℕ :=
  s.biUnion (fun key => (Finset.range c).image (fun pos => key * c + pos))

lemma mem_imageIndices {s : Finset ℕ} {c x : ℕ} :
    x ∈ imageIndices s c ↔ ∃ k ∈ s, ∃ p, p < c ∧ k * c + p = x := by
  simp [imageIndices]

lemma block_div {k p c : ℕ} (hc : 0 < c) (hp : p < c) : (k * c + p) / c = k := by
  rw [mul_comm, Nat.mul_add_div hc, Nat.div_eq_of_lt hp, add_zero]

lemma imageIndices_disjoint {A B : Finset ℕ} {c : ℕ} (hc : 0 < c)
    (hAB : ∀ x ∈ A, x ∉ B) :
    Disjoint (imageIndices A c) (imageIndices B c) := by
  rw [Finset.disjoint_left]
  intro x hxA hxB
  obtain ⟨k, hk, p, hp, hkp⟩ := mem_imageIndices.1 hxA
  obtain ⟨k', hk', p', hp', hkp'⟩ := mem_imageIndices.1 hxB
  have hdiv : k = k' := by
    have h1 : (k * c + p) / c = k := block_div hc hp
    have h2 : (k' * c + p') / c = k' := block_div hc hp'
    rw [hkp] at h1
    rw [hkp'] at h2
    omega
  exact hAB k hk (hdiv ▸ hk')

lemma outOfFoldSet_not_in_foldSet {n : ℕ} {cancer : ℕ → Bool} {ncif cif ncof : Finset ℕ}
    (hncof : ncof ⊆ outOfFold n ncif cif \ cancerOutOfFold n cancer ncif cif) :
    ∀ x ∈ outOfFoldSet (cancerOutOfFold n cancer ncif cif) ncof, x ∉ foldSet ncif cif := by
  intro x hx
  rcases Finset.mem_union.1 hx with hx | hx
  · have : x ∈ outOfFold n ncif cif := Finset.mem_of_mem_filter x hx
    exact (Finset.mem_sdiff.1 this).2
  · have : x ∈ outOfFold n ncif cif := (Finset.mem_sdiff.1 (hncof hx)).1
    exact (Finset.mem_sdiff.1 this).2

/-- C1: for every fold, the patch indices of the validation mapping
(`fold_mapping[k]`, values `imageIndices (foldSet ncif cif) c`) are disjoint
from the patch indices of the training mapping (`train_mapping[k]`, values
`imageIndices (outOfFoldSet ...) c`), and every training patch index belongs to
a patient whose whole block of `c` patches is disjoint from the fold's
validation patch indices. -/
theorem fold_train_mappings_disjoint
    (n c : ℕ) (cancer : ℕ → Bool) (ncif cif ncof : Finset ℕ)
    (hc : 0 < c)
    (hncof : ncof ⊆ outOfFold n ncif cif \ cancerOutOfFold n cancer ncif cif) :
    Disjoint (imageIndices (foldSet ncif cif) c)
      (imageIndices (outOfFoldSet (cancerOutOfFold n cancer ncif cif) ncof) c)
    ∧ ∀ i ∈ imageIndices (outOfFoldSet (cancerOutOfFold n cancer ncif cif) ncof) c,
        Disjoint (imageIndices {i / c} c) (imageIndices (foldSet ncif cif) c) := by
  have hdis := @outOfFoldSet_not_in_foldSet n cancer ncif cif ncof hncof
  constructor
  · exact (imageIndices_disjoint hc hdis).symm
  · intro i hi
    obtain ⟨k, hk, p, hp, hkp⟩ := mem_imageIndices.1 hi
    have hik : i / c = k := by rw [← hkp]; exact block_div hc hp
    refine imageIndices_disjoint hc ?_
    intro x hx
    rw [Finset.mem_singleton] at hx
    subst hx
    rw [hik]
    exact hdis k hk

/-- C2 counterexample: with 13 cancer patients and `fold_fraction = 1/5` the
code requests `random.sample(..., int(1/5 * 13)) `, i.e. 2 patients per class,
while the claimed `round(1/5 * 13)` is 3.  So a fold's validation set holds 2
patients of each class, not `round(f * |C|)`. -/
theorem fold_fraction_truncates_not_rounds :
    (cancerPatients 16 (fun i => decide (i < 13))).card = 13
    ∧ numEachClassFold (1/5) ((cancerPatients 16 (fun i => decide (i < 13))).card) = 2
    ∧ (npRound ((1/5 : ℚ) * ((cancerPatients 16 (fun i => decide (i < 13))).card : ℕ))).toNat
        = 3 := by
  have hcard : (cancerPatients 16 (fun i => decide (i < 13))).card = 13 := by decide
  refine ⟨hcard, ?_, ?_⟩ <;>
    · rw [hcard]
      norm_num [numEachClassFold, pyInt, npRound, Int.fract] <;> decide

/-- C2 (amended: the per-class validation count is `int(f * |C|)`, i.e.
truncation, not `round`): for any fold of the partitioner, given the three
`random.sample` outcomes with the cardinalities and populations the code
requests, the fold's validation patient set contains exactly
`numEachClassFold f |C|` patients of each class; the training patient set is
all remaining cancer patients together with an equally sized non-cancer
sample (1:1 balance); and both mappings expand each patient to its block of
`c` contiguous patch indices. -/
theorem fold_partition_balance
    (n c : ℕ) (cancer : ℕ → Bool) (f : ℚ) (ncif cif ncof : Finset ℕ)
    (hc : 0 < c)
    (hncif : ncif ⊆ nonCancerPatients n cancer)
    (hncifc : ncif.card = numEachClassFold f (cancerPatients n cancer).card)
    (hcif : cif ⊆ cancerPatients n cancer)
    (hcifc : cif.card = numEachClassFold f (cancerPatients n cancer).card)
    (hncof : ncof ⊆ outOfFold n ncif cif \ cancerOutOfFold n cancer ncif cif)
    (hncofc : ncof.card = (cancerOutOfFold n cancer ncif cif).card) :
    (foldSet ncif cif).filter (fun i => cancer i = true) = cif
    ∧ (foldSet ncif cif).filter (fun i => cancer i = false) = ncif
    ∧ (foldSet ncif cif).card = 2 * numEachClassFold f (cancerPatients n cancer).card
    ∧ cancerOutOfFold n cancer ncif cif = cancerPatients n cancer \ cif
    ∧ ncof.card = (cancerPatients n cancer \ cif).card
    ∧ Disjoint ncof (cancerPatients n cancer)
    ∧ (outOfFoldSet (cancerOutOfFold n cancer ncif cif) ncof).card
        = 2 * (cancerPatients n cancer \ cif).card
    ∧ (imageIndices (foldSet ncif cif) c).card = (foldSet ncif cif).card * c
    ∧ (imageIndices (outOfFoldSet (cancerOutOfFold n cancer ncif cif) ncof) c).card
        = (outOfFoldSet (cancerOutOfFold n cancer ncif cif) ncof).card * c := by
  have hcifT : ∀ i ∈ cif, cancer i = true := by
    intro i hi
    exact (Finset.mem_filter.1 (hcif hi)).2
  have hncifF : ∀ i ∈ ncif, cancer i = false := by
    intro i hi
    exact (Finset.mem_filter.1 (hncif hi)).2
  have hdisj : Disjoint ncif cif := by
    rw [Finset.disjoint_left]
    intro a ha hb
    have := hncifF a ha
    have := hcifT a hb
    simp_all
  have hfilT : (foldSet ncif cif).filter (fun i => cancer i = true) = cif := by
    rw [foldSet, Finset.filter_union]
    rw [Finset.filter_false_of_mem (by intro i hi; simp [hncifF i hi]),
      Finset.filter_true_of_mem hcifT, Finset.empty_union]
  have hfilF : (foldSet ncif cif).filter (fun i => cancer i = false) = ncif := by
    rw [foldSet, Finset.filter_union]
    rw [Finset.filter_true_of_mem hncifF,
      Finset.filter_false_of_mem (by intro i hi; simp [hcifT i hi]), Finset.union_empty]
  have hCsub : cancerPatients n cancer ⊆ patientIndices n := Finset.filter_subset _ _
  have hcoof : cancerOutOfFold n cancer ncif cif = cancerPatients n cancer \ cif := by
    ext i
    simp only [cancerOutOfFold, outOfFold, foldSet, cancerPatients, patientIndices,
      Finset.mem_filter, Finset.mem_sdiff, Finset.mem_union, Finset.mem_range]
    constructor
    · rintro ⟨⟨hn, hni⟩, hcanc⟩
      exact ⟨⟨hn, hcanc⟩, fun h => hni (Or.inr h)⟩
    · rintro ⟨⟨hn, hcanc⟩, hni⟩
      refine ⟨⟨hn, ?_⟩, hcanc⟩
      rintro (h | h)
      · have := hncifF i h
        simp_all
      · exact hni h
  have hdisjncof : Disjoint ncof (cancerPatients n cancer) := by
    rw [Finset.disjoint_left]
    intro a ha hb
    have hmem := Finset.mem_sdiff.1 (hncof ha)
    refine hmem.2 ?_
    rw [hcoof, Finset.mem_sdiff]
    have haout := Finset.mem_sdiff.1 (hncof ha)
    constructor
    · exact hb
    · intro hacif
      exact (Finset.mem_sdiff.1 haout.1).2 (Finset.mem_union.2 (Or.inr hacif))
  have hdisjoof : Disjoint (cancerOutOfFold n cancer ncif cif) ncof := by
    rw [Finset.disjoint_right]
    intro a ha
    exact (Finset.mem_sdiff.1 (hncof ha)).2
  have hcardIdx : ∀ s : Finset ℕ, (imageIndices s c).card = s.card * c := by
    intro s
    rw [imageIndices, Finset.card_biUnion]
    · have : ∀ key ∈ s, ((Finset.range c).image (fun pos => key * c + pos)).card = c := by
        intro key _
        rw [Finset.card_image_of_injective _ (fun a b h => by omega), Finset.card_range]
      rw [Finset.sum_congr rfl this, Finset.sum_const, smul_eq_mul]
    · intro k₁ _ k₂ _ hne
      rw [Finset.disjoint_left]
      intro x hx₁ hx₂
      simp only [Finset.mem_image, Finset.mem_range] at hx₁ hx₂
      obtain ⟨p₁, hp₁, he₁⟩ := hx₁
      obtain ⟨p₂, hp₂, he₂⟩ := hx₂
      have h₁ : x / c = k₁ := by rw [← he₁]; exact block_div hc hp₁
      have h₂ : x / c = k₂ := by rw [← he₂]; exact block_div hc hp₂
      exact hne (h₁ ▸ h₂)
  refine ⟨hfilT, hfilF, ?_, hcoof, ?_, hdisjncof, ?_, hcardIdx _, hcardIdx _⟩
  · rw [foldSet, Finset.card_union_of_disjoint hdisj, hncifc, hcifc]
    omega
  · rw [hncofc, hcoof]
  · rw [outOfFoldSet, Finset.card_union_of_disjoint hdisjoof, hcoof, ← hcoof, hncofc, hcoof]
    omega

/-- Concrete instantiation of C2's amended theorem: 5 patients, patients 0,1
cancerous, 2 crops per patient, `f = 1/2`, so one patient per class in the
validation fold; draws `cif = {0}`, `ncif = {2}`, `ncof = {3}`. -/
theorem fold_partition_balance_witness :
    (0 < 2
      ∧ ({2} : Finset ℕ) ⊆ nonCancerPatients 5 (fun i => decide (i < 2))
      ∧ ({2} : Finset ℕ).card
          = numEachClassFold (1/2) ((cancerPatients 5 (fun i => decide (i < 2))).card)
      ∧ ({0} : Finset ℕ) ⊆ cancerPatients 5 (fun i => decide (i < 2))
      ∧ ({0} : Finset ℕ).card
          = numEachClassFold (1/2) ((cancerPatients 5 (fun i => decide (i < 2))).card)
      ∧ ({3} : Finset ℕ) ⊆ outOfFold 5 {2} {0} \
          cancerOutOfFold 5 (fun i => decide (i < 2)) {2} {0}
      ∧ ({3} : Finset ℕ).card
          = (cancerOutOfFold 5 (fun i => decide (i < 2)) {2} {0}).card)
    ∧ ((foldSet {2} {0}).filter (fun i => (fun i => decide (i < 2)) i = true) = {0}
      ∧ (foldSet {2} {0}).filter (fun i => (fun i => decide (i < 2)) i = false) = {2}
      ∧ (foldSet {2} {0}).card
          = 2 * numEachClassFold (1/2) ((cancerPatients 5 (fun i => decide (i < 2))).card)
      ∧ cancerOutOfFold 5 (fun i => decide (i < 2)) {2} {0}
          = cancerPatients 5 (fun i => decide (i < 2)) \ {0}
      ∧ ({3} : Finset ℕ).card = (cancerPatients 5 (fun i => decide (i < 2)) \ {0}).card
      ∧ Disjoint ({3} : Finset ℕ) (cancerPatients 5 (fun i => decide (i < 2)))
      ∧ (outOfFoldSet (cancerOutOfFold 5 (fun i => decide (i < 2)) {2} {0}) {3}).card
          = 2 * (cancerPatients 5 (fun i => decide (i < 2)) \ {0}).card
      ∧ (imageIndices (foldSet {2} {0}) 2).card = (foldSet {2} {0}).card * 2
      ∧ (imageIndices (outOfFoldSet (cancerOutOfFold 5 (fun i => decide (i < 2)) {2} {0}) {3}) 2).card
          = (outOfFoldSet (cancerOutOfFold 5 (fun i => decide (i < 2)) {2} {0}) {3}).card * 2) :=
  ⟨⟨by decide, by decide,
      by rw [show (cancerPatients 5 (fun i => decide (i < 2))).card = 2 from by decide]
         norm_num [numEachClassFold, pyInt] <;> decide,
      by decide,
      by rw [show (cancerPatients 5 (fun i => decide (i < 2))).card = 2 from by decide]
         norm_num [numEachClassFold, pyInt] <;> decide,
      by decide, by decide⟩,
    fold_partition_balance 5 2 (fun i => decide (i < 2)) (1/2) {2} {0} {3}
      (by decide) (by decide)
      (by rw [show (cancerPatients 5 (fun i => decide (i < 2))).card = 2 from by decide]
          norm_num [numEachClassFold, pyInt] <;> decide)
      (by decide)
      (by rw [show (cancerPatients 5 (fun i => decide (i < 2))).card = 2 from by decide]
          norm_num [numEachClassFold, pyInt] <;> decide)
      (by decide) (by decide)⟩

/-- Concrete instantiation of C1: 5 patients (patients 0,1 cancerous), 2 crops
per patient, fold validation patients `{0, 2}`, sampled training complement
`{1} ∪ {3}`. -/
theorem fold_train_mappings_disjoint_witness :
    (0 < 2
      ∧ ({3} : Finset ℕ) ⊆ outOfFold 5 {2} {0} \
          cancerOutOfFold 5 (fun i => decide (i < 2)) {2} {0})
    ∧ (Disjoint (imageIndices (foldSet {2} {0}) 2)
        (imageIndices (outOfFoldSet (cancerOutOfFold 5 (fun i => decide (i < 2)) {2} {0}) {3}) 2)
      ∧ ∀ i ∈ imageIndices (outOfFoldSet (cancerOutOfFold 5 (fun i => decide (i < 2)) {2} {0}) {3}) 2,
          Disjoint (imageIndices {i / 2} 2) (imageIndices (foldSet {2} {0}) 2)) :=
  ⟨⟨by decide, by decide⟩,
    fold_train_mappings_disjoint 5 2 (fun i => decide (i < 2)) {2} {0} {3}
      (by decide) (by decide)⟩

/-! ### Geometric cropper (`crop_from_center`, lines 68-89; `rotated_crop`, lines 92-123)

A SimpleITK image is modelled as its size triple `(sx, sy, sz)` (the
`GetSize()` order: width, height, depth) and a total intensity function on ℤ³
(meaningful on `[0,sx) × [0,sy) × [0,sz)`).  Python slice indices are
normalized by `pyIdx` exactly as Python does (negative indices wrap from the
end, then both ends clamp into `[0, size]`).  The embedding is pure, so the
source's absence of input mutation is inherited by construction.
-/

structure Img where
  sx : ℕ
  sy : ℕ
  sz : ℕ
  data : ℤ → ℤ → ℤ → ℚ

/-- Python slice-bound normalization for an axis of length `n`. -/
def pyIdx (i : ℤ) (n : ℕ) : ℤ := if i < 0 then max (n + i) 0 else min i n

/-- `image[a₁:b₁, a₂:b₂, a₃:b₃]` on a SimpleITK image: sub-image whose voxel
`(x,y,z)` is the source voxel `(start₁+x, start₂+y, start₃+z)`. -/
def slice3 (img : Img) (a₁ b₁ a₂ b₂ a₃ b₃ : ℤ) : Img :=
  { sx := (pyIdx b₁ img.sx - pyIdx a₁ img.sx).toNat
    sy := (pyIdx b₂ img.sy - pyIdx a₂ img.sy).toNat
    sz := (pyIdx b₃ img.sz - pyIdx a₃ img.sz).toNat
    data := fun x y z =>
      img.data (pyIdx a₁ img.sx + x) (pyIdx a₂ img.sy + y) (pyIdx a₃ img.sz + z) }

/-- `crop_from_center(images, ijk_coordinates, width, height, depth, i_offset,
j_offset)`: per image, the slice window
`[(c_i - i_offset) - width//2, (c_i - i_offset) + ceil(width/2))` ×
`[(c_j - j_offset) - height//2, (c_j - j_offset) + ceil(height/2))` ×
`[c_k - depth//2, c_k + ceil(depth/2))`.  `width // 2 = w/2` and
`int(np.ceil(width/2)) = (w+1)/2` in ℕ. -/
def crop_from_center (images : List Img) (ijk : List (ℤ × ℤ × ℤ))
    (width height depth : ℕ) (i_offset j_offset : ℤ) : List Img :=
  List.zipWith (fun image c =>
    slice3 image
      ((c.1 - i_offset) - (width / 2 : ℕ)) ((c.1 - i_offset) + ((width + 1) / 2 : ℕ))
      ((c.2.1 - j_offset) - (height / 2 : ℕ)) ((c.2.1 - j_offset) + ((height + 1) / 2 : ℕ))
      (c.2.2 - (depth / 2 : ℕ)) (c.2.2 + ((depth + 1) / 2 : ℕ)))
    images ijk

lemma zipWith_getElem?_eq {α β γ : Type} (f : α → β → γ) :
    ∀ (l₁ : List α) (l₂ : List β) (i : ℕ) (a : α) (b : β),
      l₁[i]? = some a → l₂[i]? = some b → (List.zipWith f l₁ l₂)[i]? = some (f a b) := by
  intro l₁
  induction l₁ with
  | nil => intro l₂ i a b h; simp at h
  | cons x t ih =>
    intro l₂ i a b h₁ h₂
    cases l₂ with
    | nil => simp at h₂
    | cons y u =>
      cases i with
      | zero =>
        simp only [List.getElem?_cons_zero, Option.some.injEq] at h₁ h₂
        simp [List.zipWith, h₁, h₂]
      | succ j =>
        simp only [List.getElem?_cons_succ] at h₁ h₂
        simpa [List.zipWith] using ih u j a b h₁ h₂

lemma pyIdx_of_bounds {i : ℤ} {n : ℕ} (h₁ : 0 ≤ i) (h₂ : i ≤ (n : ℤ)) :
    pyIdx i n = i := by
  unfold pyIdx
  split <;> omega

/-- C3: when the window is fully in bounds, `crop_from_center` returns for
image `i` exactly the sub-volume at the claimed index window, of shape exactly
`(width, height, depth)`; the embedding is a pure function of its inputs. -/
theorem crop_from_center_window
    (images : List Img) (ijk : List (ℤ × ℤ × ℤ)) (width height depth : ℕ)
    (i_offset j_offset : ℤ) (i : ℕ) (img : Img) (c : ℤ × ℤ × ℤ)
    (himg : images[i]? = some img) (hc : ijk[i]? = some c)
    (hx₁ : 0 ≤ (c.1 - i_offset) - ((width / 2 : ℕ) : ℤ))
    (hx₂ : (c.1 - i_offset) + (((width + 1) / 2 : ℕ) : ℤ) ≤ (img.sx : ℤ))
    (hy₁ : 0 ≤ (c.2.1 - j_offset) - ((height / 2 : ℕ) : ℤ))
    (hy₂ : (c.2.1 - j_offset) + (((height + 1) / 2 : ℕ) : ℤ) ≤ (img.sy : ℤ))
    (hz₁ : 0 ≤ c.2.2 - ((depth / 2 : ℕ) : ℤ))
    (hz₂ : c.2.2 + (((depth + 1) / 2 : ℕ) : ℤ) ≤ (img.sz : ℤ)) :
    ∃ r, (crop_from_center images ijk width height depth i_offset j_offset)[i]? = some r
      ∧ r.sx = width ∧ r.sy = height ∧ r.sz = depth
      ∧ ∀ x y z : ℤ, r.data x y z
          = img.data ((c.1 - i_offset) - ((width / 2 : ℕ) : ℤ) + x)
                     ((c.2.1 - j_offset) - ((height / 2 : ℕ) : ℤ) + y)
                     (c.2.2 - ((depth / 2 : ℕ) : ℤ) + z) := by
  refine ⟨_, zipWith_getElem?_eq _ images ijk i img c himg hc, ?_, ?_, ?_, ?_⟩
  · show ((pyIdx _ img.sx) - (pyIdx _ img.sx)).toNat = width
    rw [pyIdx_of_bounds hx₁ (by omega), pyIdx_of_bounds (by omega) hx₂]
    omega
  · show ((pyIdx _ img.sy) - (pyIdx _ img.sy)).toNat = height
    rw [pyIdx_of_bounds hy₁ (by omega), pyIdx_of_bounds (by omega) hy₂]
    omega
  · show ((pyIdx _ img.sz) - (pyIdx _ img.sz)).toNat = depth
    rw [pyIdx_of_bounds hz₁ (by omega), pyIdx_of_bounds (by omega) hz₂]
    omega
  · intro x y z
    show img.data (pyIdx _ img.sx + x) (pyIdx _ img.sy + y) (pyIdx _ img.sz + z) = _
    rw [pyIdx_of_bounds hx₁ (by omega), pyIdx_of_bounds hy₁ (by omega),
      pyIdx_of_bounds hz₁ (by omega)]

/-- A concrete 4×4×4 image used in the cropper witnesses. -/
def demoImg : Img := { sx := 4, sy := 4, sz := 4, data := fun x y z => x + 10 * y + 100 * z }

/-- Concrete instantiation of C3: cropping a 4×4×4 volume to 2×2×2 at center
`(2,2,2)` with zero offsets. -/
theorem crop_from_center_window_witness :
    ∃ r, (crop_from_center [demoImg] [((2 : ℤ), (2 : ℤ), (2 : ℤ))] 2 2 2 0 0)[0]? = some r
      ∧ r.sx = 2 ∧ r.sy = 2 ∧ r.sz = 2
      ∧ ∀ x y z : ℤ, r.data x y z
          = demoImg.data ((2 - 0) - ((2 / 2 : ℕ) : ℤ) + x)
                       ((2 - 0) - ((2 / 2 : ℕ) : ℤ) + y)
                       (2 - ((2 / 2 : ℕ) : ℤ) + z) :=
  crop_from_center_window [demoImg] [((2 : ℤ), (2 : ℤ), (2 : ℤ))] 2 2 2 0 0 0
    demoImg ((2 : ℤ), (2 : ℤ), (2 : ℤ)) rfl rfl
    (by decide) (by decide) (by decide) (by decide) (by decide) (by decide)

/-- Physical-space point (LPS coordinates, exact rationals for floats). -/
def Pt : Type := ℚ × ℚ × ℚ

/-- `rotated_crop(patient_images, crop_width, crop_height, crop_depth, degrees,
lps, ijk_values)`.  `rotation3d` lives in the external `image_augmentation`
module (not under `src/`); modelled from the spec as an opaque rigid-rotation
function `rot` taking an image, an angle in degrees and the physical rotation
center.  The random draws `np.random.choice(degrees)`, `np.random.randint(-7,7)`
(twice) appear as the explicit arguments `choice`, `i_offset`, `j_offset`. -/
def rotated_crop (rot : Img → ℤ → Pt → Img) (patient_images : List Img)
    (crop_width crop_height crop_depth : ℕ) (degrees : List ℤ) (lps : Pt)
    (ijk_values : List (ℤ × ℤ × ℤ)) (choice : ℕ) (i_offset j_offset : ℤ) : List Img :=
  let degree := degrees.getD choice 0
  let rotated_patient_images := patient_images.map (fun patient => rot patient degree lps)
  crop_from_center rotated_patient_images ijk_values crop_width crop_height crop_depth
    i_offset j_offset

/-- C4: `rotated_crop` rotates every input image by the one chosen angle from
`candidate_degrees` about the given physical center, the random offsets are
drawn in `[-7, 7)`, and the crop windows are those of `crop_from_center`
evaluated at the original (pre-rotation) voxel centers on the rotated images. -/
theorem rotated_crop_same_angle_orig_centers
    (rot : Img → ℤ → Pt → Img) (images : List Img) (w h d : ℕ)
    (degrees : List ℤ) (lps : Pt) (ijk : List (ℤ × ℤ × ℤ))
    (choice : ℕ) (i_offset j_offset : ℤ)
    (hchoice : choice < degrees.length)
    (hio₁ : -7 ≤ i_offset) (hio₂ : i_offset < 7)
    (hjo₁ : -7 ≤ j_offset) (hjo₂ : j_offset < 7)
    (i : ℕ) (img : Img) (c : ℤ × ℤ × ℤ)
    (himg : images[i]? = some img) (hc : ijk[i]? = some c) :
    (rotated_crop rot images w h d degrees lps ijk choice i_offset j_offset)[i]?
      = some (slice3 (rot img (degrees.get ⟨choice, hchoice⟩) lps)
          ((c.1 - i_offset) - ((w / 2 : ℕ) : ℤ)) ((c.1 - i_offset) + (((w + 1) / 2 : ℕ) : ℤ))
          ((c.2.1 - j_offset) - ((h / 2 : ℕ) : ℤ)) ((c.2.1 - j_offset) + (((h + 1) / 2 : ℕ) : ℤ))
          (c.2.2 - ((d / 2 : ℕ) : ℤ)) (c.2.2 + (((d + 1) / 2 : ℕ) : ℤ))) := by
  have hdeg : degrees.getD choice 0 = degrees.get ⟨choice, hchoice⟩ := by
    rw [List.getD_eq_getElem?_getD, List.getElem?_eq_getElem hchoice]
    simp [List.get_eq_getElem]
  have hmap : (images.map (fun patient =>
      rot patient (degrees.getD choice 0) lps))[i]?
        = some (rot img (degrees.getD choice 0) lps) := by
    rw [List.getElem?_map, himg]
    rfl
  unfold rotated_crop crop_from_center
  rw [zipWith_getElem?_eq _ _ _ _ _ _ hmap hc, hdeg]

/-- Concrete instantiation of C4: identity rotation, degrees `[5, -5]`,
choice 0, offsets 0, one 4×4×4 image centered at `(2,2,2)`, 2×2×2 crop. -/
theorem rotated_crop_same_angle_orig_centers_witness :
    ((0 : ℕ) < ([5, -5] : List ℤ).length
      ∧ (-7 : ℤ) ≤ 0 ∧ (0 : ℤ) < 7)
    ∧ (rotated_crop (fun p _ _ => p) [demoImg] 2 2 2 [5, -5] ((0 : ℚ), (0 : ℚ), (0 : ℚ))
        [((2 : ℤ), (2 : ℤ), (2 : ℤ))] 0 0 0)[0]?
      = some (slice3 ((fun (p : Img) (_ : ℤ) (_ : Pt) => p) demoImg
            (([5, -5] : List ℤ).get ⟨0, by decide⟩) ((0 : ℚ), (0 : ℚ), (0 : ℚ)))
          ((2 - 0) - ((2 / 2 : ℕ) : ℤ)) ((2 - 0) + (((2 + 1) / 2 : ℕ) : ℤ))
          ((2 - 0) - ((2 / 2 : ℕ) : ℤ)) ((2 - 0) + (((2 + 1) / 2 : ℕ) : ℤ))
          (2 - ((2 / 2 : ℕ) : ℤ)) (2 + (((2 + 1) / 2 : ℕ) : ℤ))) :=
  ⟨⟨by decide, by decide, by decide⟩,
    rotated_crop_same_angle_orig_centers (fun p _ _ => p) [demoImg] 2 2 2 [5, -5]
      ((0 : ℚ), (0 : ℚ), (0 : ℚ)) [((2 : ℤ), (2 : ℤ), (2 : ℤ))] 0 0 0
      (by decide) (by decide) (by decide) (by decide) (by decide)
      0 demoImg ((2 : ℤ), (2 : ℤ), (2 : ℤ)) rfl rfl⟩

/-! ### Patch dataset builder (`image_cropper`, lines 217-299)

Per finding (dataframe row) the builder reads the patient's three modality
volumes, pads them, converts the fiducial to per-modality voxel indices and
produces `num_crops_per_image` crops (crop 0 centered, later crops rotated).
Those geometry/randomness steps are abstracted into the `Finding` record: the
field `crop n` is the triple of modality crops produced for `crop_num = n`,
`blank` says whether `'' in patient_images` (the finding is skipped), and
`noise n` is the `np.random.rand` data that would be drawn if crop `n` is
replaced at test time.  The validation, keying, accumulation and final
`crops.pop(key)` logic — the subject of C5 and C7 — is modelled faithfully.

Python dicts are modelled as a key `Finset` plus a value function (claims here
do not depend on dict iteration order); `crops.pop(key)` raises `KeyError` on
a missing key, modelled by `Option`.  `exit()` on `num_crops_per_image < 1` is
also modelled as `none`.
-/

structure Finding where
  pid : ℕ
  clinSig : ℕ
  blank : Bool
  crop : ℕ → Img × Img × Img
  noise : ℕ → (ℤ → ℤ → ℤ → ℚ) × (ℤ → ℤ → ℤ → ℚ) × (ℤ → ℤ → ℤ → ℚ)

/-- `np.sum(sitk.GetArrayFromImage(im).flatten())`. -/
def sumImg (im : Img) : ℚ :=
  ∑ x ∈ Finset.range im.sx, ∑ y ∈ Finset.range im.sy, ∑ z ∈ Finset.range im.sz,
    im.data (x : ℤ) (y : ℤ) (z : ℤ)

/-- The image is zero at every in-bounds voxel. -/
def allZero (im : Img) : Prop :=
  ∀ x ∈ Finset.range im.sx, ∀ y ∈ Finset.range im.sy, ∀ z ∈ Finset.range im.sz,
    im.data (x : ℤ) (y : ℤ) (z : ℤ) = 0

lemma sumImg_eq_zero_of_allZero {im : Img} (h : allZero im) : sumImg im = 0 := by
  refine Finset.sum_eq_zero fun x hx => ?_
  refine Finset.sum_eq_zero fun y hy => ?_
  exact Finset.sum_eq_zero fun z hz => h x hx y hy z hz

/-- `im.GetSize() == (crop_width, crop_height, crop_depth)`. -/
def sizeIs (w h d : ℕ) (im : Img) : Bool :=
  decide (im.sx = w) && decide (im.sy = h) && decide (im.sz = d)

/-- `invalid_sizes == []`: all three modality crops have the target size. -/
def sizesOk (w h d : ℕ) (c : Img × Img × Img) : Bool :=
  sizeIs w h d c.1 && sizeIs w h d c.2.1 && sizeIs w h d c.2.2

/-- Python dict with keys of type `K` and entry lists of type `List E`
(value lists, since the source only ever appends). -/
structure Dict (K E : Type) where
  keys : Finset K
  val : K → List E

def initDict {K E : Type} : Dict K E := { keys := ∅, val := fun _ => [] }

/-- `if key in crops.keys(): crops[key].append(e) else: crops[key] = [e]`. -/
def appendEntry {K E : Type} [DecidableEq K] (d : Dict K E) (k : K) (e : E) : Dict K E :=
  if k ∈ d.keys then
    { keys := d.keys, val := fun k' => if k' = k then d.val k' ++ [e] else d.val k' }
  else
    { keys := insert k d.keys, val := fun k' => if k' = k then [e] else d.val k' }

def lookupD {K E : Type} [DecidableEq K] (d : Dict K E) (k : K) : Option (List E) :=
  if k ∈ d.keys then some (d.val k) else none

/-- `crops.pop(key)`: `KeyError` (`none`) when the key is absent. -/
def popD {K E : Type} [DecidableEq K] (d : Dict K E) (k : K) : Option (Dict K E) :=
  if k ∈ d.keys then some { keys := d.keys.erase k, val := d.val } else none

/-- `for key in invalid_keys: crops.pop(key)`. -/
def popAll {K E : Type} [DecidableEq K] (d : Dict K E) : List K → Option (Dict K E)
  | [] => some d
  | k :: t =>
    match popD d k with
    | none => none
    | some d' => popAll d' t

/-- `invalid_keys.add(k)` (a Python `set`; kept as a duplicate-free list). -/
def addKey {K : Type} [DecidableEq K] (s : List K) (k : K) : List K :=
  if k ∈ s then s else s ++ [k]

structure TrainState where
  crops : Dict (ℕ × ℕ) ((Img × Img × Img) × ℕ)
  invalid : List (ℕ × ℕ)

/-- Body of the `for crop_num in range(num_crops_per_image)` loop, train mode:
shape validation (`continue` on failure), the all-zero first-modality check,
and accumulation under key `(patient_id, cancer_marker)`. -/
def processCropTrain (w h d : ℕ) (f : Finding) (st : TrainState) (n : ℕ) : TrainState :=
  if sizesOk w h d (f.crop n) = false then
    { st with invalid := addKey st.invalid (f.pid, f.clinSig) }
  else if sumImg (f.crop n).1 = 0 then
    { crops := appendEntry st.crops (f.pid, f.clinSig) (f.crop n, f.clinSig)
      invalid := addKey st.invalid (f.pid, f.clinSig) }
  else
    { st with crops := appendEntry st.crops (f.pid, f.clinSig) (f.crop n, f.clinSig) }

/-- One dataframe row, train mode (`if '' in patient_images: continue`). -/
def processFindingTrain (w h d numCrops : ℕ) (st : TrainState) (f : Finding) : TrainState :=
  if f.blank then st
  else (List.range numCrops).foldl (processCropTrain w h d f) st

def buildTrainState (w h d numCrops : ℕ) (fs : List Finding) : TrainState :=
  fs.foldl (processFindingTrain w h d numCrops) ⟨initDict, []⟩

/-- `image_cropper(..., train=True)`, returning the final `crops` dict. -/
def image_cropper_train (w h d numCrops : ℕ) (fs : List Finding) :
    Option (Dict (ℕ × ℕ) ((Img × Img × Img) × ℕ)) :=
  if numCrops < 1 then none
  else
    let st := buildTrainState w h d numCrops fs
    popAll st.crops st.invalid

lemma mem_addKey_self {K : Type} [DecidableEq K] (s : List K) (k : K) : k ∈ addKey s k := by
  unfold addKey
  split
  · assumption
  · simp

lemma mem_addKey_of_mem {K : Type} [DecidableEq K] {s : List K} {k : K} (k' : K)
    (h : k ∈ s) : k ∈ addKey s k' := by
  unfold addKey
  split
  · exact h
  · exact List.mem_append_left _ h

lemma invalid_mono_crop {w h d : ℕ} {f : Finding} {st : TrainState} {n : ℕ} {k : ℕ × ℕ}
    (hk : k ∈ st.invalid) : k ∈ (processCropTrain w h d f st n).invalid := by
  unfold processCropTrain
  split
  · exact mem_addKey_of_mem _ hk
  · split
    · exact mem_addKey_of_mem _ hk
    · exact hk

lemma foldl_pres {σ α : Type} (P : σ → Prop) (g : σ → α → σ)
    (hmono : ∀ s a, P s → P (g s a)) :
    ∀ (l : List α) (s : σ), P s → P (l.foldl g s) := by
  intro l
  induction l with
  | nil => intro s hs; exact hs
  | cons a t ih => intro s hs; exact ih _ (hmono s a hs)

lemma foldl_pred_of_mem {σ α : Type} (P : σ → Prop) (g : σ → α → σ) (a : α)
    (hstep : ∀ s, P (g s a)) (hmono : ∀ s b, P s → P (g s b)) :
    ∀ (l : List α) (s : σ), a ∈ l → P (l.foldl g s) := by
  intro l
  induction l with
  | nil => intro s h; simp at h
  | cons b t ih =>
    intro s h
    rcases List.mem_cons.1 h with rfl | h
    · exact foldl_pres P g hmono t _ (hstep s)
    · exact ih _ h

lemma invalid_mono_finding {w h d numCrops : ℕ} {f : Finding} {st : TrainState} {k : ℕ × ℕ}
    (hk : k ∈ st.invalid) : k ∈ (processFindingTrain w h d numCrops st f).invalid := by
  unfold processFindingTrain
  split
  · exact hk
  · exact foldl_pres (fun (s : TrainState) => k ∈ s.invalid) (processCropTrain w h d f)
      (fun s n hs => invalid_mono_crop hs) _ _ hk

lemma crop_bad_marks_invalid {w h d : ℕ} {f : Finding} {n : ℕ}
    (hbad : sizesOk w h d (f.crop n) = false ∨ sumImg (f.crop n).1 = 0) :
    ∀ st : TrainState, (f.pid, f.clinSig) ∈ (processCropTrain w h d f st n).invalid := by
  intro st
  unfold processCropTrain
  rcases hbad with hbad | hbad
  · rw [if_pos hbad]
    exact mem_addKey_self _ _
  · by_cases hsz : sizesOk w h d (f.crop n) = false
    · rw [if_pos hsz]
      exact mem_addKey_self _ _
    · rw [if_neg hsz, if_pos hbad]
      exact mem_addKey_self _ _

lemma finding_bad_marks_invalid {w h d numCrops : ℕ} {f : Finding} {n : ℕ}
    (hblank : f.blank = false) (hn : n < numCrops)
    (hbad : sizesOk w h d (f.crop n) = false ∨ sumImg (f.crop n).1 = 0) :
    ∀ st : TrainState, (f.pid, f.clinSig) ∈ (processFindingTrain w h d numCrops st f).invalid := by
  intro st
  unfold processFindingTrain
  rw [if_neg (by simp [hblank])]
  exact foldl_pred_of_mem (fun (s : TrainState) => (f.pid, f.clinSig) ∈ s.invalid)
    (processCropTrain w h d f) n
    (crop_bad_marks_invalid hbad) (fun s b hs => invalid_mono_crop hs)
    _ _ (List.mem_range.2 hn)

lemma popAll_keys_subset {K E : Type} [DecidableEq K] :
    ∀ (ks : List K) (d r : Dict K E), popAll d ks = some r → r.keys ⊆ d.keys := by
  intro ks
  induction ks with
  | nil =>
    intro d r h
    rw [popAll] at h
    cases h
    exact Finset.Subset.refl _
  | cons k t ih =>
    intro d r h
    rw [popAll] at h
    unfold popD at h
    by_cases hk : k ∈ d.keys
    · rw [if_pos hk] at h
      exact (ih _ _ h).trans (Finset.erase_subset _ _)
    · rw [if_neg hk] at h
      cases h

lemma popAll_removes {K E : Type} [DecidableEq K] :
    ∀ (ks : List K) (d r : Dict K E) (k : K), k ∈ ks → popAll d ks = some r →
      lookupD r k = none := by
  intro ks
  induction ks with
  | nil => intro d r k h; simp at h
  | cons k' t ih =>
    intro d r k hmem h
    rw [popAll] at h
    unfold popD at h
    by_cases hk : k' ∈ d.keys
    · rw [if_pos hk] at h
      rcases List.mem_cons.1 hmem with rfl | hmem
      · have hsub := popAll_keys_subset t _ r h
        have : k ∉ r.keys := by
          intro hkr
          exact (Finset.not_mem_erase k d.keys) (hsub hkr)
        unfold lookupD
        rw [if_neg this]
      · exact ih _ _ _ hmem h
    · rw [if_neg hk] at h
      cases h

/-- C5: in train mode, a finding with any wrong-shaped modality crop or an
all-zero first-modality crop is marked invalid, and (whenever the call
returns a dictionary rather than dying in `crops.pop`) its key is absent from
the returned dictionary, so none of its crops are accessible under it. -/
theorem image_cropper_train_excludes
    (w h d numCrops : ℕ) (fs : List Finding) (res : Dict (ℕ × ℕ) ((Img × Img × Img) × ℕ))
    (f : Finding) (hf : f ∈ fs) (hblank : f.blank = false)
    (n : ℕ) (hn : n < numCrops)
    (hbad : sizesOk w h d (f.crop n) = false ∨ allZero (f.crop n).1)
    (hres : image_cropper_train w h d numCrops fs = some res) :
    (f.pid, f.clinSig) ∈ (buildTrainState w h d numCrops fs).invalid
    ∧ lookupD res (f.pid, f.clinSig) = none := by
  have hbad' : sizesOk w h d (f.crop n) = false ∨ sumImg (f.crop n).1 = 0 := by
    rcases hbad with hbad | hbad
    · exact Or.inl hbad
    · exact Or.inr (sumImg_eq_zero_of_allZero hbad)
  have hinv : (f.pid, f.clinSig) ∈ (buildTrainState w h d numCrops fs).invalid := by
    unfold buildTrainState
    exact foldl_pred_of_mem (fun (s : TrainState) => (f.pid, f.clinSig) ∈ s.invalid)
      (processFindingTrain w h d numCrops) f
      (finding_bad_marks_invalid hblank hn hbad')
      (fun s b hs => invalid_mono_finding hs) _ _ hf
  refine ⟨hinv, ?_⟩
  unfold image_cropper_train at hres
  split at hres
  · cases hres
  · exact popAll_removes _ _ _ _ hinv hres

/-- One-voxel zero image used by the builder witnesses. -/
def zeroImg : Img := { sx := 1, sy := 1, sz := 1, data := fun _ _ _ => 0 }

/-- A finding whose every crop is the all-zero triple of the right shape. -/
def zeroFinding : Finding :=
  { pid := 7
    clinSig := 1
    blank := false
    crop := fun _ => (zeroImg, zeroImg, zeroImg)
    noise := fun _ => (fun _ _ _ => 1/2, fun _ _ _ => 1/2, fun _ _ _ => 1/2) }

/-- Concrete instantiation of C5: one finding, one 1×1×1 all-zero crop; the
key `(7, 1)` is marked invalid and absent from the returned dictionary. -/
theorem image_cropper_train_excludes_witness :
    lookupD ((image_cropper_train 1 1 1 1 [zeroFinding]).getD initDict) (7, 1) = none := by
  have h0 : sumImg (zeroFinding.crop 0).1 = 0 := by
    simp [zeroFinding, sumImg, zeroImg]
  have hsz : sizesOk 1 1 1 (zeroFinding.crop 0) = true := by decide
  have hstep : processCropTrain 1 1 1 zeroFinding ⟨initDict, []⟩ 0
      = ⟨appendEntry initDict (7, 1) (zeroFinding.crop 0, 1), [(7, 1)]⟩ := by
    unfold processCropTrain
    rw [if_neg (by simp [hsz]), if_pos h0]
    rfl
  have hbuild : buildTrainState 1 1 1 1 [zeroFinding]
      = ⟨appendEntry initDict (7, 1) (zeroFinding.crop 0, 1), [(7, 1)]⟩ := by
    unfold buildTrainState
    show processFindingTrain 1 1 1 1 ⟨initDict, []⟩ zeroFinding = _
    unfold processFindingTrain
    rw [if_neg (by decide)]
    show processCropTrain 1 1 1 zeroFinding ⟨initDict, []⟩ 0 = _
    exact hstep
  have hkey : ((7 : ℕ), (1 : ℕ)) ∈
      (appendEntry initDict ((7 : ℕ), (1 : ℕ)) (zeroFinding.crop 0, 1)).keys := by
    unfold appendEntry initDict
    rw [if_neg (by simp)]
    simp
  have hres : image_cropper_train 1 1 1 1 [zeroFinding]
      = some ⟨(appendEntry initDict (7, 1) (zeroFinding.crop 0, 1)).keys.erase (7, 1),
              (appendEntry initDict (7, 1) (zeroFinding.crop 0, 1)).val⟩ := by
    unfold image_cropper_train
    rw [if_neg (by norm_num), hbuild]
    simp [popAll, popD, hkey]
  have hmain := image_cropper_train_excludes 1 1 1 1 [zeroFinding] _ zeroFinding
    (List.mem_singleton.2 rfl) rfl 0 (by norm_num)
    (Or.inr (by intro x hx y hy z hz; rfl)) hres
  rw [hres]
  exact hmain.2

/-- `sitk.GetImageFromArray(np.random.rand(crop_depth, crop_height, crop_width))`
three times: a triple of noise images whose `GetSize()` is exactly
`(crop_width, crop_height, crop_depth)`. -/
def noiseTriple (w h d : ℕ)
    (η : (ℤ → ℤ → ℤ → ℚ) × (ℤ → ℤ → ℤ → ℚ) × (ℤ → ℤ → ℤ → ℚ)) : Img × Img × Img :=
  ({ sx := w, sy := h, sz := d, data := η.1 },
   { sx := w, sy := h, sz := d, data := η.2.1 },
   { sx := w, sy := h, sz := d, data := η.2.2 })

/-- Test-mode crop emission: if the first modality sums to zero, all three
modality crops are replaced by fresh noise of the configured shape. -/
def emitCropTest (w h d : ℕ) (f : Finding) (n : ℕ) : Img × Img × Img :=
  if sumImg (f.crop n).1 = 0 then noiseTriple w h d (f.noise n) else f.crop n

/-- One dataframe row, test mode: no shape validation, key is the bare
`patient_id` (no class label), one entry appended per crop. -/
def processFindingTest (w h d numCrops : ℕ) (st : Dict ℕ (Img × Img × Img))
    (f : Finding) : Dict ℕ (Img × Img × Img) :=
  if f.blank then st
  else (List.range numCrops).foldl
    (fun s n => appendEntry s f.pid (emitCropTest w h d f n)) st

/-- `image_cropper(..., train=False)`. -/
def image_cropper_test (w h d numCrops : ℕ) (fs : List Finding) :
    Option (Dict ℕ (Img × Img × Img)) :=
  if numCrops < 1 then none
  else some (fs.foldl (processFindingTest w h d numCrops) initDict)

lemma appendEntry_keys {K E : Type} [DecidableEq K] (d : Dict K E) (k : K) (e : E) :
    (appendEntry d k e).keys = insert k d.keys := by
  unfold appendEntry
  split
  · exact (Finset.insert_eq_self.2 (by assumption)).symm
  · rfl

lemma appendEntry_val_ne {K E : Type} [DecidableEq K] (d : Dict K E) (k k' : K) (e : E)
    (h : k' ≠ k) : (appendEntry d k e).val k' = d.val k' := by
  unfold appendEntry
  split <;> simp [h]

lemma appendEntry_val_self {K E : Type} [DecidableEq K] (d : Dict K E) (k : K) (e : E)
    (h : k ∈ d.keys ∨ d.val k = []) :
    (appendEntry d k e).val k = d.val k ++ [e] := by
  unfold appendEntry
  split
  · simp
  · rcases h with h | h
    · exact absurd h (by assumption)
    · simp [h]

lemma foldl_pres_mem {σ α : Type} (P : σ → Prop) (g : σ → α → σ) :
    ∀ (l : List α), (∀ s a, a ∈ l → P s → P (g s a)) →
      ∀ s, P s → P (l.foldl g s) := by
  intro l
  induction l with
  | nil => intro _ s hs; exact hs
  | cons a t ih =>
    intro hmono s hs
    exact ih (fun s' b hb => hmono s' b (List.mem_cons_of_mem a hb)) _
      (hmono s a (List.mem_cons_self a t) hs)

lemma crops_fold_val (w h d : ℕ) (f : Finding) :
    ∀ (m : ℕ) (st : Dict ℕ (Img × Img × Img)), st.val f.pid = [] →
      ((List.range m).foldl (fun s n => appendEntry s f.pid (emitCropTest w h d f n)) st).val f.pid
        = (List.range m).map (emitCropTest w h d f)
      ∧ (0 < m → f.pid ∈
          ((List.range m).foldl (fun s n => appendEntry s f.pid (emitCropTest w h d f n)) st).keys) := by
  intro m
  induction m with
  | zero => intro st hv; simpa using hv
  | succ m ih =>
    intro st hv
    obtain ⟨ihv, ihk⟩ := ih st hv
    rw [List.range_succ, List.foldl_append, List.map_append, List.foldl_cons, List.foldl_nil]
    have hcase : f.pid ∈
        ((List.range m).foldl (fun s n => appendEntry s f.pid (emitCropTest w h d f n)) st).keys
        ∨ ((List.range m).foldl (fun s n => appendEntry s f.pid (emitCropTest w h d f n)) st).val f.pid
            = [] := by
      rcases Nat.eq_zero_or_pos m with rfl | hm
      · exact Or.inr (by simpa using ihv)
      · exact Or.inl (ihk hm)
    constructor
    · rw [appendEntry_val_self _ _ _ hcase, ihv]
      simp
    · intro _
      rw [appendEntry_keys]
      exact Finset.mem_insert_self _ _

lemma processFindingTest_val_other (w h d numCrops : ℕ) (g : Finding) (k : ℕ)
    (hne : g.pid ≠ k) (st : Dict ℕ (Img × Img × Img)) :
    (processFindingTest w h d numCrops st g).val k = st.val k := by
  unfold processFindingTest
  split
  · rfl
  · exact foldl_pres_mem (fun (s : Dict ℕ (Img × Img × Img)) => s.val k = st.val k) _ _
      (fun s n _ hs => by simp only [appendEntry_val_ne _ _ _ _ (fun h => hne h.symm)]; exact hs)
      _ rfl

lemma processFindingTest_keys_mono (w h d numCrops : ℕ) (g : Finding) (k : ℕ)
    (st : Dict ℕ (Img × Img × Img)) (hk : k ∈ st.keys) :
    k ∈ (processFindingTest w h d numCrops st g).keys := by
  unfold processFindingTest
  split
  · exact hk
  · exact foldl_pres_mem (fun (s : Dict ℕ (Img × Img × Img)) => k ∈ s.keys) _ _
      (fun s n _ hs => by simp only [appendEntry_keys]; exact Finset.mem_insert_of_mem hs)
      _ hk

/-- C7: in test mode a finding (with a unique patient id among the processed
rows) contributes exactly `numCrops` entries under its bare patient-id key
— the key carries no class label and the entries carry no `cancer_marker`,
unlike train mode — and every crop whose first modality is all-zero is
replaced by the noise triple, each of whose images has the configured shape
`(w, h, d)`, so the per-finding patch count is unchanged. -/
theorem image_cropper_test_noise
    (w h d numCrops : ℕ) (fs : List Finding) (res : Dict ℕ (Img × Img × Img))
    (f : Finding) (l₁ l₂ : List Finding)
    (hsplit : fs = l₁ ++ f :: l₂)
    (hother : ∀ g ∈ l₁ ++ l₂, g.pid ≠ f.pid)
    (hblank : f.blank = false)
    (hres : image_cropper_test w h d numCrops fs = some res) :
    lookupD res f.pid = some ((List.range numCrops).map (emitCropTest w h d f))
    ∧ ((List.range numCrops).map (emitCropTest w h d f)).length = numCrops
    ∧ (∀ n, allZero (f.crop n).1 →
        emitCropTest w h d f n = noiseTriple w h d (f.noise n))
    ∧ ∀ η, (noiseTriple w h d η).1.sx = w ∧ (noiseTriple w h d η).1.sy = h
        ∧ (noiseTriple w h d η).1.sz = d
        ∧ (noiseTriple w h d η).2.1.sx = w ∧ (noiseTriple w h d η).2.1.sy = h
        ∧ (noiseTriple w h d η).2.1.sz = d
        ∧ (noiseTriple w h d η).2.2.sx = w ∧ (noiseTriple w h d η).2.2.sy = h
        ∧ (noiseTriple w h d η).2.2.sz = d := by
  unfold image_cropper_test at hres
  split at hres
  · cases hres
  · rename_i hnc
    have hnc' : 0 < numCrops := by omega
    have hres' : res = fs.foldl (processFindingTest w h d numCrops) initDict :=
      (Option.some_inj.1 hres).symm
    subst hres' hsplit
    rw [List.foldl_append, List.foldl_cons] at *
    have h₁ : (l₁.foldl (processFindingTest w h d numCrops) initDict).val f.pid = [] := by
      refine foldl_pres_mem (fun (s : Dict ℕ (Img × Img × Img)) => s.val f.pid = []) _ _ ?_ _ rfl
      intro s g hg hs
      rw [processFindingTest_val_other _ _ _ _ _ _
        (hother g (List.mem_append_left _ hg)) s]
      exact hs
    set stf := processFindingTest w h d numCrops
      (l₁.foldl (processFindingTest w h d numCrops) initDict) f with hstf
    have h₂ : stf.val f.pid = (List.range numCrops).map (emitCropTest w h d f)
        ∧ f.pid ∈ stf.keys := by
      rw [hstf]
      unfold processFindingTest
      rw [if_neg (by simp [hblank])]
      obtain ⟨hv, hk⟩ := crops_fold_val w h d f numCrops _ h₁
      exact ⟨hv, hk hnc'⟩
    have h₃ : (l₂.foldl (processFindingTest w h d numCrops) stf).val f.pid
          = (List.range numCrops).map (emitCropTest w h d f)
        ∧ f.pid ∈ (l₂.foldl (processFindingTest w h d numCrops) stf).keys := by
      refine foldl_pres_mem
        (fun (s : Dict ℕ (Img × Img × Img)) =>
          s.val f.pid = (List.range numCrops).map (emitCropTest w h d f)
          ∧ f.pid ∈ s.keys) _ _ ?_ _ h₂
      intro s g hg hs
      refine ⟨?_, processFindingTest_keys_mono _ _ _ _ _ _ _ hs.2⟩
      rw [processFindingTest_val_other _ _ _ _ _ _
        (hother g (List.mem_append_right _ hg)) s]
      exact hs.1
    refine ⟨?_, by simp, ?_, ?_⟩
    · unfold lookupD
      rw [if_pos h₃.2, h₃.1]
    · intro n hz
      unfold emitCropTest
      rw [if_pos (sumImg_eq_zero_of_allZero hz)]
    · intro η
      exact ⟨rfl, rfl, rfl, rfl, rfl, rfl, rfl, rfl, rfl⟩

/-- Concrete instantiation of C7: one finding with an all-zero 1×1×1 crop;
its single emitted patch is the noise triple, under the bare key `7`. -/
theorem image_cropper_test_noise_witness :
    lookupD ((image_cropper_test 1 1 1 1 [zeroFinding]).getD initDict) 7
      = some [noiseTriple 1 1 1 (zeroFinding.noise 0)] := by
  have hres : image_cropper_test 1 1 1 1 [zeroFinding]
      = some ([zeroFinding].foldl (processFindingTest 1 1 1 1) initDict) := by
    unfold image_cropper_test
    rw [if_neg (by norm_num)]
  have hmain := image_cropper_test_noise 1 1 1 1 [zeroFinding] _ zeroFinding [] []
    rfl (by simp) rfl hres
  have hz : allZero (zeroFinding.crop 0).1 := by intro x hx y hy z hz; rfl
  have hemit := hmain.2.2.1 0 hz
  rw [hres]
  show lookupD ([zeroFinding].foldl (processFindingTest 1 1 1 1) initDict) 7
    = some [noiseTriple 1 1 1 (zeroFinding.noise 0)]
  rw [show (7 : ℕ) = zeroFinding.pid from rfl, hmain.1]
  rw [show (List.range 1).map (emitCropTest 1 1 1 zeroFinding)
    = [emitCropTest 1 1 1 zeroFinding 0] from rfl, hemit]

/-! ### Resampler (`resample_image`, lines 18-48; `resample_all_images`, lines 51-65)

`resample_image` configures a `sitk.ResampleImageFilter`; the pixel-level
`Execute` is external SimpleITK, so the embedding records the configured
output metadata (spacing, computed size, copied direction and origin) and the
selected interpolator.  Direction and origin are opaque type parameters.
-/

inductive Interp
  | nearestNeighbor
  | cosineWindowedSinc
deriving DecidableEq

structure ItkImage (D O : Type) where
  spacing : ℚ × ℚ × ℚ
  size : ℕ × ℕ × ℕ
  direction : D
  origin : O

structure ResampledImage (D O : Type) where
  spacing : ℚ × ℚ × ℚ
  size : ℕ × ℕ × ℕ
  direction : D
  origin : O
  interpolator : Interp

/-- `resample_image(itk_image, out_spacing, is_label)`:
`out_size = [int(np.round(size_i * (spacing_i / out_spacing_i))) for i]`,
direction and origin copied from the input, nearest-neighbor interpolation
iff `is_label` and `sitkCosineWindowedSinc` otherwise. -/
def resample_image {D O : Type} (itk_image : ItkImage D O) (out_spacing : ℚ × ℚ × ℚ)
    (is_label : Bool) : ResampledImage D O :=
  { spacing := out_spacing
    size :=
      ((npRound ((itk_image.size.1 : ℚ) * (itk_image.spacing.1 / out_spacing.1))).toNat,
       (npRound ((itk_image.size.2.1 : ℚ) * (itk_image.spacing.2.1 / out_spacing.2.1))).toNat,
       (npRound ((itk_image.size.2.2 : ℚ) * (itk_image.spacing.2.2 / out_spacing.2.2))).toNat)
    direction := itk_image.direction
    origin := itk_image.origin
    interpolator := if is_label then Interp.nearestNeighbor else Interp.cosineWindowedSinc }

/-- C6: for strictly positive target spacing, the resampled image's size per
axis is `round(original_size * original_spacing / target_spacing)` (`np.round`,
half-to-even), direction and origin are copied unchanged, the interpolator is
nearest-neighbor exactly when `is_label`, and only spacing and size change. -/
theorem resample_image_spec {D O : Type} (img : ItkImage D O) (out : ℚ × ℚ × ℚ)
    (is_label : Bool)
    (h₁ : 0 < out.1) (h₂ : 0 < out.2.1) (h₃ : 0 < out.2.2) :
    (resample_image img out is_label).size
      = ((npRound ((img.size.1 : ℚ) * (img.spacing.1 / out.1))).toNat,
         (npRound ((img.size.2.1 : ℚ) * (img.spacing.2.1 / out.2.1))).toNat,
         (npRound ((img.size.2.2 : ℚ) * (img.spacing.2.2 / out.2.2))).toNat)
    ∧ (resample_image img out is_label).direction = img.direction
    ∧ (resample_image img out is_label).origin = img.origin
    ∧ ((resample_image img out is_label).interpolator = Interp.nearestNeighbor
        ↔ is_label = true)
    ∧ (resample_image img out is_label).spacing = out := by
  refine ⟨rfl, rfl, rfl, ?_, rfl⟩
  cases is_label <;> simp [resample_image]

/-- Concrete instantiation of C6: a 4×4×4 volume at spacing `(1,1,1)`
resampled to spacing `(2,2,3)`. -/
theorem resample_image_spec_witness :
    ((0 : ℚ) < 2 ∧ (0 : ℚ) < 2 ∧ (0 : ℚ) < 3)
    ∧ ((resample_image (⟨(1, 1, 1), (4, 4, 4), (0 : ℤ), (0 : ℤ)⟩ : ItkImage ℤ ℤ)
          (2, 2, 3) false).size
        = ((npRound ((4 : ℚ) * ((1 : ℚ) / 2))).toNat,
           (npRound ((4 : ℚ) * ((1 : ℚ) / 2))).toNat,
           (npRound ((4 : ℚ) * ((1 : ℚ) / 3))).toNat)
      ∧ (resample_image (⟨(1, 1, 1), (4, 4, 4), (0 : ℤ), (0 : ℤ)⟩ : ItkImage ℤ ℤ)
          (2, 2, 3) false).direction = (0 : ℤ)
      ∧ (resample_image (⟨(1, 1, 1), (4, 4, 4), (0 : ℤ), (0 : ℤ)⟩ : ItkImage ℤ ℤ)
          (2, 2, 3) false).origin = (0 : ℤ)
      ∧ ((resample_image (⟨(1, 1, 1), (4, 4, 4), (0 : ℤ), (0 : ℤ)⟩ : ItkImage ℤ ℤ)
          (2, 2, 3) false).interpolator = Interp.nearestNeighbor ↔ false = true)
      ∧ (resample_image (⟨(1, 1, 1), (4, 4, 4), (0 : ℤ), (0 : ℤ)⟩ : ItkImage ℤ ℤ)
          (2, 2, 3) false).spacing = (2, 2, 3)) :=
  ⟨⟨by norm_num, by norm_num, by norm_num⟩,
    resample_image_spec (⟨(1, 1, 1), (4, 4, 4), (0 : ℤ), (0 : ℤ)⟩ : ItkImage ℤ ℤ)
      (2, 2, 3) false (by norm_num) (by norm_num) (by norm_num)⟩

/-- A modality slot: either a loaded image or the empty-string placeholder
used by the pipeline for a missing image. -/
inductive ModEntry (D O : Type)
  | blank
  | img (i : ItkImage D O)

inductive ResEntry (D O : Type)
  | blank
  | img (r : ResampledImage D O)

/-- `resample_all_images(modality, out_spacing, some_missing)`: both branches
of the source are the identical comprehension
`[resample_image(m, out_spacing) if m != "" else "" for m in modality]`. -/
def resample_all_images {D O : Type} (modality : List (ModEntry D O))
    (out_spacing : ℚ × ℚ × ℚ) (some_missing : Bool) : List (ResEntry D O) :=
  if some_missing then
    modality.map (fun mod_image =>
      match mod_image with
      | ModEntry.img i => ResEntry.img (resample_image i out_spacing false)
      | ModEntry.blank => ResEntry.blank)
  else
    modality.map (fun mod_image =>
      match mod_image with
      | ModEntry.img i => ResEntry.img (resample_image i out_spacing false)
      | ModEntry.blank => ResEntry.blank)

/-- Spec-side description of `resample_all_images`: flag-independent
elementwise map passing blanks through and resampling images with the
`is_label` default (`False`). -/
def resampleEntry {D O : Type} (out_spacing : ℚ × ℚ × ℚ) : ModEntry D O → ResEntry D O
  | ModEntry.blank => ResEntry.blank
  | ModEntry.img i => ResEntry.img (resample_image i out_spacing false)

/-- C10: `resample_all_images` gives the same result whether `some_missing` is
`True` or `False`: in both cases blanks pass through unchanged and every
image is resampled with `is_label` at its default. -/
theorem resample_all_images_flag_eq {D O : Type} (modality : List (ModEntry D O))
    (out_spacing : ℚ × ℚ × ℚ) :
    resample_all_images modality out_spacing true
      = resample_all_images modality out_spacing false
    ∧ ∀ b, resample_all_images modality out_spacing b
        = modality.map (resampleEntry out_spacing) := by
  constructor
  · simp [resample_all_images]
  · intro b
    cases b <;>
      · simp only [resample_all_images, if_true, if_false]
        refine List.map_congr_left fun e _ => ?_
        cases e <;> rfl

/-! ### Sample provider (`ProstateImages.__getitem__`, lines 351-390)

The train branch resolves the logical index through the active fold mapping
(`self.mapping[self.map_num][index + self.first_index]`), reads the patch from
disk, normalizes it, and — because a constant-intensity patch normalizes to
NaN — checks `np.isnan(output["image"][0, 0, 0])`, substituting
`np.random.rand(3, 32, 32)` when it holds.  Disk reading plus normalization
are external SimpleITK/numpy operations, modelled as an opaque `store` map
from global patch index to the already-normalized float array.  Float values
are modelled explicitly so that NaN and infinities are representable.
-/

inductive FVal
  | fin (q : ℚ)
  | nan
  | inf
  | ninf
deriving DecidableEq

def FVal.isNan : FVal → Bool
  | FVal.nan => true
  | _ => false

def FVal.isNonFinite : FVal → Bool
  | FVal.fin _ => false
  | _ => true

/-- A numpy float array of shape `(s0, s1, s2)`. -/
structure NArr where
  s0 : ℕ
  s1 : ℕ
  s2 : ℕ
  entry : ℕ → ℕ → ℕ → FVal

/-- The array has some non-finite element (NaN or ±inf). -/
def containsNonFinite (a : NArr) : Prop :=
  ∃ i ∈ Finset.range a.s0, ∃ j ∈ Finset.range a.s1, ∃ k ∈ Finset.range a.s2,
    (a.entry i j k).isNonFinite = true

instance containsNonFiniteDecidable (a : NArr) : Decidable (containsNonFinite a) := by
  unfold containsNonFinite
  infer_instance

/-- `np.random.rand(3, 32, 32)` with draw data `η`. -/
def noiseArr (η : ℕ → ℕ → ℕ → ℚ) : NArr :=
  { s0 := 3, s1 := 32, s2 := 32, entry := fun i j k => FVal.fin (η i j k) }

/-- Train-mode provider state: active fold mappings, current map number,
first index, and the composition of disk read and normalization. -/
structure Provider where
  mapping : ℕ → ℕ → ℕ
  mapNum : ℕ
  firstIndex : ℕ
  store : ℕ → NArr

/-- The image/index part of `ProstateImages.__getitem__` (train branch) after
normalization: `index = mapping[map_num][index + first_index]`; if
`np.isnan(image[0, 0, 0])` the image is replaced by uniform noise; the
returned record carries the resolved global index. -/
def getitemTrain (p : Provider) (η : ℕ → ℕ → ℕ → ℚ) (index : ℕ) : NArr × ℕ :=
  (if ((p.store (p.mapping p.mapNum (index + p.firstIndex))).entry 0 0 0).isNan = true
    then noiseArr η
    else p.store (p.mapping p.mapNum (index + p.firstIndex)),
   p.mapping p.mapNum (index + p.firstIndex))

/-- A normalized patch that is finite at `[0,0,0]` but NaN at `[0,0,1]`. -/
def offCornerNanArr : NArr :=
  { s0 := 1, s1 := 1, s2 := 2
    entry := fun _ _ k => if k = 1 then FVal.nan else FVal.fin 0 }

/-- Provider whose store always yields `offCornerNanArr`. -/
def offCornerNanProvider : Provider :=
  { mapping := fun _ k => k, mapNum := 0, firstIndex := 0, store := fun _ => offCornerNanArr }

def halfNoise : ℕ → ℕ → ℕ → ℚ := fun _ _ _ => 1/2

/-- C8 counterexample: a normalized image containing a non-finite value (NaN
at `[0,0,1]`) whose `[0,0,0]` entry is finite is returned unchanged, not
replaced by noise — the code only inspects `image[0, 0, 0]`, so the claim's
"contains any non-finite value" trigger is false on the code. -/
theorem getitem_nonfinite_not_replaced :
    containsNonFinite offCornerNanArr
    ∧ (getitemTrain offCornerNanProvider halfNoise 0).1 = offCornerNanArr
    ∧ (getitemTrain offCornerNanProvider halfNoise 0).1 ≠ noiseArr halfNoise := by
  refine ⟨by decide, rfl, ?_⟩
  intro h
  have h0 : offCornerNanArr.s0 = (noiseArr halfNoise).s0 := by
    rw [show (getitemTrain offCornerNanProvider halfNoise 0).1 = offCornerNanArr from rfl] at h
    rw [h]
  exact absurd h0 (by decide)

/-- C8 (amended: the replacement trigger is `np.isnan` of the single voxel
`[0,0,0]` of the normalized image, not "contains any non-finite value"): for
every read at a logical index, if the normalized patch's `[0,0,0]` entry is
NaN the returned image is the uniform noise array of the hardcoded target
shape `(3, 32, 32)`; otherwise the normalized patch is returned unchanged;
and the resolved global index is returned alongside. -/
theorem getitemTrain_fallback (p : Provider) (η : ℕ → ℕ → ℕ → ℚ) (index : ℕ) :
    (((p.store (p.mapping p.mapNum (index + p.firstIndex))).entry 0 0 0).isNan = true →
      (getitemTrain p η index).1 = noiseArr η)
    ∧ (((p.store (p.mapping p.mapNum (index + p.firstIndex))).entry 0 0 0).isNan = false →
      (getitemTrain p η index).1 = p.store (p.mapping p.mapNum (index + p.firstIndex)))
    ∧ (getitemTrain p η index).2 = p.mapping p.mapNum (index + p.firstIndex)
    ∧ (noiseArr η).s0 = 3 ∧ (noiseArr η).s1 = 32 ∧ (noiseArr η).s2 = 32 := by
  refine ⟨fun h => ?_, fun h => ?_, rfl, rfl, rfl, rfl⟩
  · unfold getitemTrain
    rw [if_pos h]
  · unfold getitemTrain
    rw [if_neg (by simp [h])]

/-- Provider whose store yields an all-NaN one-voxel patch. -/
def nanProvider : Provider :=
  { mapping := fun _ k => k, mapNum := 0, firstIndex := 0
    store := fun _ => { s0 := 1, s1 := 1, s2 := 1, entry := fun _ _ _ => FVal.nan } }

/-- Concrete instantiation of C8's amended theorem: the NaN-at-`[0,0,0]` store
is replaced by noise, the finite-at-`[0,0,0]` store is passed through. -/
theorem getitemTrain_fallback_witness :
    (getitemTrain nanProvider halfNoise 0).1 = noiseArr halfNoise
    ∧ (getitemTrain offCornerNanProvider halfNoise 0).1
        = offCornerNanProvider.store (offCornerNanProvider.mapping 0 (0 + 0)) :=
  ⟨(getitemTrain_fallback nanProvider halfNoise 0).1 rfl,
   (getitemTrain_fallback offCornerNanProvider halfNoise 0).2.1 rfl⟩

/-! ### Training loop best-model tracking (`train_model`, lines 431-562)

Each epoch ends with a validation AUC `auc_eval[-1]`; the tracker starts from
`best_auc = 0` with `best_model` unassigned, and on `auc_eval[-1] > best_auc`
stores `best_auc = auc_eval[-1]` and `best_model = copy.deepcopy(model)`.
An epoch is modelled as the pair of its validation AUC and the model weights
at its end (`W` an arbitrary weight type).  `copy.deepcopy` of the model
corresponds to storing the weight value itself: in this pure embedding the
stored snapshot is by construction unaffected by later optimizer steps, which
only produce later weight values.  `best_model` unassigned is `none`
(`NameError` at `return best_model` if never assigned).
-/

def bestStep {W : Type} (s : ℚ × Option W) (p : ℚ × W) : ℚ × Option W :=
  if s.1 < p.1 then (p.1, some p.2) else s

def bestFold {W : Type} (epochs : List (ℚ × W)) : ℚ × Option W :=
  epochs.foldl bestStep (0, none)

/-- C9 counterexample: a fold whose only epoch reaches validation AUC 0.
That epoch's AUC is (vacuously) strictly greater than every previous epoch's
AUC, yet no snapshot is retained — `best_auc` starts at 0 and the comparison
is strict — so the returned best model is unassigned (`NameError`), not the
epoch's snapshot. -/
theorem bestFold_zero_auc_not_snapshotted :
    (∀ q ∈ ([] : List (ℚ × ℤ)), q.1 < (0 : ℚ))
    ∧ (bestFold [((0 : ℚ), (5 : ℤ))]).2 = none := by
  constructor
  · intro q hq
    simp at hq
  · rfl

lemma bestFold_foldl_lt {W : Type} (c : ℚ) :
    ∀ (l : List (ℚ × W)) (s : ℚ × Option W), s.1 < c → (∀ q ∈ l, q.1 < c) →
      (l.foldl bestStep s).1 < c := by
  intro l
  induction l with
  | nil => intro s hs _; exact hs
  | cons p t ih =>
    intro s hs hl
    rw [List.foldl_cons]
    refine ih _ ?_ (fun q hq => hl q (List.mem_cons_of_mem p hq))
    unfold bestStep
    split
    · exact hl p (List.mem_cons_self p t)
    · exact hs

lemma bestFold_foldl_le {W : Type} (s : ℚ × Option W) :
    ∀ (l : List (ℚ × W)), (∀ q ∈ l, q.1 ≤ s.1) → l.foldl bestStep s = s := by
  intro l
  induction l with
  | nil => intro _; rfl
  | cons p t ih =>
    intro hl
    rw [List.foldl_cons]
    have hstep : bestStep s p = s := by
      unfold bestStep
      rw [if_neg (not_lt.2 (hl p (List.mem_cons_self p t)))]
    rw [hstep]
    exact ih (fun q hq => hl q (List.mem_cons_of_mem p hq))

/-- C9 (amended: an epoch's snapshot is retained when its validation AUC is
strictly greater than all previous epochs' AUCs **and strictly greater than
the initial threshold 0**; subsequent epochs that do not strictly improve
leave the retained snapshot untouched, and the fold returns that snapshot):
if epoch `p` beats 0 and every earlier epoch strictly, and no later epoch
exceeds it, the fold's tracker ends at exactly `(p.1, some p.2)` — the deep
snapshot of the weights at epoch `p`, unchanged by the later optimizer
steps. -/
theorem bestFold_snapshot {W : Type} (ps qs : List (ℚ × W)) (p : ℚ × W)
    (hp : 0 < p.1) (hprev : ∀ q ∈ ps, q.1 < p.1) (hpost : ∀ q ∈ qs, q.1 ≤ p.1) :
    bestFold (ps ++ p :: qs) = (p.1, some p.2) := by
  unfold bestFold
  rw [List.foldl_append, List.foldl_cons]
  have h₁ : (ps.foldl bestStep ((0 : ℚ), (none : Option W))).1 < p.1 :=
    bestFold_foldl_lt p.1 ps (0, none) hp hprev
  have h₂ : bestStep (ps.foldl bestStep ((0 : ℚ), (none : Option W))) p = (p.1, some p.2) := by
    show (if (ps.foldl bestStep ((0 : ℚ), (none : Option W))).1 < p.1 then (p.1, some p.2)
      else ps.foldl bestStep ((0 : ℚ), (none : Option W))) = (p.1, some p.2)
    rw [if_pos h₁]
  rw [h₂]
  exact bestFold_foldl_le _ qs (by simpa using hpost)

/-- Concrete instantiation of C9's amended theorem: epochs with AUCs
`[1/4, 1/2, 1/2, 1/4]` and weights `[1, 2, 9, 7]`; the retained snapshot is
the weights `2` of the first epoch attaining the maximum AUC `1/2`, untouched
by the later epochs. -/
theorem bestFold_snapshot_witness :
    ((0 : ℚ) < 1/2
      ∧ (∀ q ∈ [((1/4 : ℚ), (1 : ℤ))], q.1 < 1/2)
      ∧ (∀ q ∈ [((1/2 : ℚ), (9 : ℤ)), ((1/4 : ℚ), (7 : ℤ))], q.1 ≤ 1/2))
    ∧ bestFold [((1/4 : ℚ), (1 : ℤ)), ((1/2 : ℚ), (2 : ℤ)),
        ((1/2 : ℚ), (9 : ℤ)), ((1/4 : ℚ), (7 : ℤ))] = (1/2, some 2) :=
  ⟨⟨by norm_num, by intro q hq; simp at hq; rw [hq]; norm_num,
     by intro q hq; simp at hq; rcases hq with hq | hq <;> rw [hq] <;> norm_num⟩,
   bestFold_snapshot [((1/4 : ℚ), (1 : ℤ))] [((1/2 : ℚ), (9 : ℤ)), ((1/4 : ℚ), (7 : ℤ))]
     ((1/2 : ℚ), (2 : ℤ)) (by norm_num)
     (by intro q hq; simp at hq; rw [hq]; norm_num)
     (by intro q hq; simp at hq; rcases hq with hq | hq <;> rw [hq] <;> norm_num)⟩
